import Mathlib

/-!
Shallow embedding of the snowball elliptic-curve point-accumulation gadget
(src/affine_gen.rs, src/sum_acc.rs, src/apk_circuits.rs) at the level of
witness values.  Field-variable handles are modelled by their plain field
values; a fallible circuit operation (an assert on a plain value, a
division by zero during witness computation, or a mul-by-inverse with a
zero denominator) is modelled by Option, with none standing for the hard
witness-generation failure.
-/

namespace Snowball

variable {K : Type} [Field K] [DecidableEq K]

/-- A non-zero affine point: the pair of coordinate handles of
NonZeroAffineVarGeneric in affine_gen.rs. -/
structure Pt (K : Type) where
  x : K
  y : K
deriving DecidableEq

/-- Value semantics of the field handle's mul_by_inverse_unchecked: at
witness-generation time the denominator's plain value is inverted, and a zero
denominator is a hard failure (SynthesisError / DivisionByZero). -/
def mul_by_inverse_unchecked (num den : K) : Option K :=
  if den = 0 then none else some (num * den⁻¹)

/-- An emulated-regime product left in unreduced (limb-overflowed) form.  At
the value level the representation carries exactly the field element it
denotes; reduction changes the representation, never the value. -/
structure Unreduced (K : Type) where
  val : K

/-- Value semantics of mul_without_reduce on the emulated field handle. -/
def mul_without_reduce (a b : K) : Unreduced K :=
  ⟨a * b⟩

/-- Addition of two unreduced emulated values. -/
def Unreduced.add (u v : Unreduced K) : Unreduced K :=
  ⟨u.val + v.val⟩

/-- Value semantics of the explicit reduce step on an unreduced value. -/
def Unreduced.reduce (u : Unreduced K) : K :=
  u.val

/-- NonZeroAffineVarGeneric::add_unchecked (affine_gen.rs): chord-slope
addition with the division realized via mul_by_inverse_unchecked. -/
def add_unchecked (p1 p2 : Pt K) : Option (Pt K) :=
  match mul_by_inverse_unchecked (p2.y - p1.y) (p2.x - p1.x) with
  | none => none
  | some lambda =>
    let x3 := lambda ^ 2 - p1.x - p2.x
    let y3 := lambda * (p1.x - x3) - p1.y
    some ⟨x3, y3⟩

/-- NonZeroAffineVarGeneric::conditionally_select (affine_gen.rs):
coordinate-wise selection by the boolean. -/
def conditionally_select (cond : Bool) (true_value false_value : Pt K) : Pt K :=
  ⟨if cond then true_value.x else false_value.x,
   if cond then true_value.y else false_value.y⟩

/-- SumAccumulator state (sum_acc.rs): the compressed running-sum
representation; the running sum's x-coordinate is x3_prev and its
y-coordinate is only materialized by finalize. -/
structure SumAccumulator (K : Type) where
  x1_prev : K
  y1_prev : K
  lambda_prev : K
  x3_prev : K
deriving DecidableEq

/-- SumAccumulator::init (sum_acc.rs, generic over both regimes): asserts the
denominator is non-zero, then lambda = (y2 - y1) * (x2 - x1)⁻¹ and
x3 = lambda² - x1 - x2. -/
def SumAccumulator.init (p1 p2 : Pt K) : Option (SumAccumulator K) :=
  if p2.x - p1.x = 0 then none
  else
    let lambda := (p2.y - p1.y) * (p2.x - p1.x)⁻¹
    let x3 := lambda ^ 2 - p1.x - p2.x
    some ⟨p1.x, p1.y, lambda, x3⟩

/-- SumAccumulator::add, native FpVar implementation (sum_acc.rs): asserts
the denominator p.x - x3_prev is non-zero, then
lambda = (lambda_prev * (x3_prev - x1_prev) + y1_prev + p.y) * (p.x - x3_prev)⁻¹
and x3 = lambda² - x3_prev - p.x. -/
def SumAccumulator.addNative (s : SumAccumulator K) (p : Pt K) :
    Option (SumAccumulator K) :=
  if p.x - s.x3_prev = 0 then none
  else
    let numerator := s.lambda_prev * (s.x3_prev - s.x1_prev) + s.y1_prev + p.y
    let lambda := numerator * (p.x - s.x3_prev)⁻¹
    let x3 := lambda ^ 2 - s.x3_prev - p.x
    some ⟨p.x, p.y, lambda, x3⟩

/-- SumAccumulator::add, emulated NonNativeFieldVar implementation
(sum_acc.rs): the slope is computed outside the constraint relation by plain
division of the current values (a zero denominator makes the division panic,
a hard witness-generation failure), allocated as a witness, and
x3 = lambda² - x3_prev - p.x with an ordinary reduced multiplication.  The
in-circuit identity it enforces is emuConstraint below. -/
def SumAccumulator.addEmulated (s : SumAccumulator K) (p : Pt K) :
    Option (SumAccumulator K) :=
  if p.x - s.x3_prev = 0 then none
  else
    let lambda := (s.lambda_prev * (s.x3_prev - s.x1_prev) + s.y1_prev + p.y) /
      (p.x - s.x3_prev)
    let x3 := lambda ^ 2 - s.x3_prev - p.x
    some ⟨p.x, p.y, lambda, x3⟩

/-- The value enforced to equal zero by the emulated add (sum_acc.rs):
prod1 = lambda ·(p.x − x3_prev) and prod2 = lambda_prev·(x1_prev − x3_prev)
are both formed with mul_without_reduce, summed while unreduced, reduced
once, and then y1_prev and p.y are subtracted. -/
def emuConstraint (s : SumAccumulator K) (p : Pt K) (lambda : K) : K :=
  ((mul_without_reduce lambda (p.x - s.x3_prev)).add
      (mul_without_reduce s.lambda_prev (s.x1_prev - s.x3_prev))).reduce
    - s.y1_prev - p.y

/-- SumAccumulator::finalize (sum_acc.rs): materializes the running sum's
y-coordinate, y3_prev = lambda_prev * (x1_prev - x3_prev) - y1_prev. -/
def SumAccumulator.finalize (s : SumAccumulator K) : Pt K :=
  ⟨s.x3_prev, s.lambda_prev * (s.x1_prev - s.x3_prev) - s.y1_prev⟩

/-- The accumulation loop of the native regime: add each point in turn,
aborting on the first failure. -/
def addAllNative (s : SumAccumulator K) : List (Pt K) → Option (SumAccumulator K)
  | [] => some s
  | p :: rest =>
    match s.addNative p with
    | none => none
    | some s' => addAllNative s' rest

/-- The accumulation loop of the emulated regime. -/
def addAllEmulated (s : SumAccumulator K) : List (Pt K) → Option (SumAccumulator K)
  | [] => some s
  | p :: rest =>
    match s.addEmulated p with
    | none => none
    | some s' => addAllEmulated s' rest

/-- Full native-regime accumulation as exercised in sum_acc.rs: init on the
first two points, add on each remaining point, then finalize. -/
def accChainNative : List (Pt K) → Option (Pt K)
  | p1 :: p2 :: rest =>
    match SumAccumulator.init p1 p2 with
    | none => none
    | some s =>
      match addAllNative s rest with
      | none => none
      | some sf => some sf.finalize
  | _ => none

/-- Full emulated-regime accumulation: init, emulated adds, finalize. -/
def accChainEmulated : List (Pt K) → Option (Pt K)
  | p1 :: p2 :: rest =>
    match SumAccumulator.init p1 p2 with
    | none => none
    | some s =>
      match addAllEmulated s rest with
      | none => none
      | some sf => some sf.finalize
  | _ => none

/-- One iteration of ApkCircuit::generate_constraints (apk_circuits.rs):
the candidate sum is computed unconditionally and the bit selects between
the candidate and the previous running point. -/
def apkStep (curr : Pt K) (b : Bool) (key : Pt K) : Option (Pt K) :=
  match add_unchecked curr key with
  | none => none
  | some next_sum => some (conditionally_select b next_sum curr)

/-- The loop of ApkCircuit::generate_constraints over the zipped
bit/key pairs. -/
def apkLoop (curr : Pt K) : List (Bool × Pt K) → Option (Pt K)
  | [] => some curr
  | (b, key) :: rest =>
    match apkStep curr b key with
    | none => none
    | some c => apkLoop c rest

/-- Little-endian bit decomposition of a packed selector value into w wires,
the value semantics of to_bits_le on the packed FpVar. -/
def toBitsLE (w v : ℕ) : List Bool :=
  (List.range w).map (fun i => v.testBit i)

/-- Fuel-driven helper computing the number of binary digits of its second
argument. -/
def bitSizeAux : ℕ → ℕ → ℕ
  | 0, _ => 0
  | _ + 1, 0 => 0
  | fuel + 1, m + 1 => bitSizeAux fuel ((m + 1) / 2) + 1

/-- The number of binary digits of the modulus q: the MODULUS_BIT_SIZE of
the native constraint field, which is the number of boolean wires produced
by to_bits_le on a packed field element. -/
def bitSize (q : ℕ) : ℕ := bitSizeAux q q

/-- ApkCircuit::generate_constraints (apk_circuits.rs) at the value level:
seed is a constant, the packed selector is decomposed into the native
field's bit-capacity-many little-endian bits, and the bits are zipped with
the keys (truncating at the shorter list). -/
def apkCircuit (q : ℕ) [NeZero q] (seed : Pt K) (keys : List (Pt K))
    (packed_bits : ZMod q) : Option (Pt K) :=
  apkLoop seed ((toBitsLE (bitSize q) packed_bits.val).zip keys)

/-! Reference definitions.

An independent short-Weierstrass addition law, used as the specification
oracle: a reference point is either the point at infinity (none) or an
affine point. -/

/-- Reference chord addition of two affine points with distinct
x-coordinates. -/
def chord (p q : Pt K) : Pt K :=
  let l := (q.y - p.y) / (q.x - p.x)
  let x3 := l ^ 2 - p.x - q.x
  ⟨x3, l * (p.x - x3) - p.y⟩

/-- Reference short-Weierstrass addition law on points of the curve
y² = x³ + a·x + b, with none as the point at infinity: inverse points sum
to infinity, equal points use the tangent slope (3x² + a) / (2y), and the
remaining case is the chord law. -/
def swAdd (a : K) : Option (Pt K) → Option (Pt K) → Option (Pt K)
  | none, q => q
  | some p, none => some p
  | some p, some q =>
    if p.x = q.x then
      if q.y = -p.y then none
      else
        let l := (3 * p.x ^ 2 + a) / (2 * p.y)
        let x3 := l ^ 2 - p.x - q.x
        some ⟨x3, l * (p.x - x3) - p.y⟩
    else some (chord p q)

/-- Reference group-theoretic sum of a point sequence, folding the
reference addition law from the point at infinity. -/
def refSum (a : K) (ps : List (Pt K)) : Option (Pt K) :=
  ps.foldl (fun acc p => swAdd a acc (some p)) none

/-- The accumulation precondition along a chain: starting from a running
sum s, every remaining point has an x-coordinate distinct from the current
running sum's. -/
def chainOk (s : Pt K) : List (Pt K) → Bool
  | [] => true
  | p :: rest => decide (s.x ≠ p.x) && chainOk (chord s p) rest

/-- The full accumulator precondition for a sequence: at least two points,
the first two have distinct x-coordinates, and the chain condition holds
from their sum onwards. -/
def accPre : List (Pt K) → Bool
  | p1 :: p2 :: rest => decide (p1.x ≠ p2.x) && chainOk (chord p1 p2) rest
  | _ => false

/-- The aggregation-circuit precondition: at every step the running point's
x-coordinate differs from the key's, the running point advancing by the
chord only when the bit is set. -/
def apkOk (curr : Pt K) : List (Bool × Pt K) → Bool
  | [] => true
  | (b, key) :: rest =>
    decide (curr.x ≠ key.x) && apkOk (if b then chord curr key else curr) rest

/-! Helper lemmas. -/

lemma init_eq_chord (p1 p2 : Pt K) (h : p1.x ≠ p2.x) :
    ∃ s : SumAccumulator K, SumAccumulator.init p1 p2 = some s ∧
      s.finalize = chord p1 p2 := by
  have hd : p2.x - p1.x ≠ 0 := sub_ne_zero.mpr (Ne.symm h)
  refine ⟨⟨p1.x, p1.y, (p2.y - p1.y) * (p2.x - p1.x)⁻¹,
    ((p2.y - p1.y) * (p2.x - p1.x)⁻¹) ^ 2 - p1.x - p2.x⟩, ?_, ?_⟩
  · simp [SumAccumulator.init, hd]
  · simp [SumAccumulator.finalize, chord, div_eq_mul_inv]

lemma addNative_step (s : SumAccumulator K) (p : Pt K) (h : s.x3_prev ≠ p.x) :
    ∃ s' : SumAccumulator K, s.addNative p = some s' ∧
      s'.finalize = chord s.finalize p := by
  have hd : p.x - s.x3_prev ≠ 0 := sub_ne_zero.mpr (Ne.symm h)
  refine ⟨⟨p.x, p.y,
    (s.lambda_prev * (s.x3_prev - s.x1_prev) + s.y1_prev + p.y) * (p.x - s.x3_prev)⁻¹,
    ((s.lambda_prev * (s.x3_prev - s.x1_prev) + s.y1_prev + p.y) * (p.x - s.x3_prev)⁻¹) ^ 2
      - s.x3_prev - p.x⟩, ?_, ?_⟩
  · simp [SumAccumulator.addNative, hd]
  · simp only [SumAccumulator.finalize, chord, Pt.mk.injEq]
    constructor
    · field_simp
      ring
    · field_simp
      ring

lemma addAllNative_chord (l : List (Pt K)) :
    ∀ s : SumAccumulator K, chainOk s.finalize l = true →
      ∃ s' : SumAccumulator K, addAllNative s l = some s' ∧
        s'.finalize = l.foldl chord s.finalize := by
  induction l with
  | nil => exact fun s _ => ⟨s, rfl, rfl⟩
  | cons p rest ih =>
    intro s h
    have h' := h
    rw [chainOk, Bool.and_eq_true, decide_eq_true_iff] at h'
    obtain ⟨hx, hrest⟩ := h'
    obtain ⟨s', hs', hfin⟩ := addNative_step s p hx
    obtain ⟨sf, hsf, hff⟩ := ih s' (by rw [hfin]; exact hrest)
    refine ⟨sf, ?_, ?_⟩
    · rw [addAllNative, hs']
      exact hsf
    · rw [hff, hfin, List.foldl_cons]

lemma refFold_chord (a : K) (l : List (Pt K)) :
    ∀ s : Pt K, chainOk s l = true →
      l.foldl (fun acc p => swAdd a acc (some p)) (some s) = some (l.foldl chord s) := by
  induction l with
  | nil => exact fun s _ => rfl
  | cons p rest ih =>
    intro s h
    rw [chainOk, Bool.and_eq_true, decide_eq_true_iff] at h
    obtain ⟨hx, hrest⟩ := h
    have hstep : swAdd a (some s) (some p) = some (chord s p) := by
      rw [swAdd, if_neg hx]
    rw [List.foldl_cons, hstep, List.foldl_cons]
    exact ih (chord s p) hrest

lemma addEmulated_eq_addNative (s : SumAccumulator K) (p : Pt K) :
    s.addEmulated p = s.addNative p := by
  by_cases hd : p.x - s.x3_prev = 0
  · rw [SumAccumulator.addEmulated, SumAccumulator.addNative, if_pos hd, if_pos hd]
  · rw [SumAccumulator.addEmulated, SumAccumulator.addNative, if_neg hd, if_neg hd,
      div_eq_mul_inv]

lemma addAllEmulated_eq (l : List (Pt K)) :
    ∀ s : SumAccumulator K, addAllEmulated s l = addAllNative s l := by
  induction l with
  | nil => exact fun s => rfl
  | cons p rest ih =>
    intro s
    rw [addAllEmulated, addAllNative, addEmulated_eq_addNative]
    cases s.addNative p with
    | none => rfl
    | some s' => exact ih s'

lemma accChainEmulated_eq (l : List (Pt K)) :
    accChainEmulated l = accChainNative l := by
  match l with
  | [] => rfl
  | [p] => rfl
  | p1 :: p2 :: rest =>
    rw [accChainEmulated, accChainNative]
    cases SumAccumulator.init p1 p2 with
    | none => rfl
    | some s =>
      show (match addAllEmulated s rest with
            | none => none
            | some sf => some sf.finalize)
          = (match addAllNative s rest with
            | none => none
            | some sf => some sf.finalize)
      rw [addAllEmulated_eq]

lemma add_unchecked_eq_chord (p q : Pt K) (h : p.x ≠ q.x) :
    add_unchecked p q = some (chord p q) := by
  have hd : q.x - p.x ≠ 0 := sub_ne_zero.mpr (Ne.symm h)
  rw [add_unchecked, mul_by_inverse_unchecked, if_neg hd]
  simp [chord, div_eq_mul_inv]

lemma add_unchecked_none (p q : Pt K) (h : p.x = q.x) :
    add_unchecked p q = none := by
  rw [add_unchecked, mul_by_inverse_unchecked, if_pos (by rw [h, sub_self])]

lemma conditionally_select_eq (b : Bool) (t f : Pt K) :
    conditionally_select b t f = if b then t else f := by
  cases b <;> rfl

lemma apkLoop_append (l₁ l₂ : List (Bool × Pt K)) :
    ∀ curr : Pt K, apkLoop curr (l₁ ++ l₂)
      = match apkLoop curr l₁ with
        | none => none
        | some c => apkLoop c l₂ := by
  induction l₁ with
  | nil => exact fun curr => rfl
  | cons bk rest ih =>
    intro curr
    obtain ⟨b, k⟩ := bk
    rw [List.cons_append, apkLoop, apkLoop]
    cases apkStep curr b k with
    | none => rfl
    | some c => exact ih c

lemma apkLoop_swAdd (a : K) (l : List (Bool × Pt K)) :
    ∀ curr : Pt K, apkOk curr l = true →
      apkLoop curr l
        = (l.filter (fun bk => bk.1)).foldl
            (fun acc bk => swAdd a acc (some bk.2)) (some curr) := by
  induction l with
  | nil => exact fun curr _ => rfl
  | cons bk rest ih =>
    intro curr h
    obtain ⟨b, k⟩ := bk
    rw [apkOk, Bool.and_eq_true, decide_eq_true_iff] at h
    obtain ⟨hx, hrest⟩ := h
    have hstep : apkStep curr b k = some (if b then chord curr k else curr) := by
      rw [apkStep, add_unchecked_eq_chord curr k hx]
      show some (conditionally_select b (chord curr k) curr) = _
      rw [conditionally_select_eq]
    rw [apkLoop, hstep]
    cases b with
    | false => exact ih curr hrest
    | true =>
      have hsw : swAdd a (some curr) (some k) = some (chord curr k) := by
        rw [swAdd, if_neg hx]
      have hfil : ((true, k) :: rest).filter (fun bk => bk.1)
          = (true, k) :: rest.filter (fun bk => bk.1) := rfl
      rw [hfil, List.foldl_cons, hsw]
      exact ih (chord curr k) hrest

lemma filter_zip_false (bs : List Bool) (keys : List (Pt K))
    (h : ∀ b ∈ bs, b = false) :
    (bs.zip keys).filter (fun bk => bk.1) = [] := by
  rw [List.filter_eq_nil_iff]
  rintro ⟨b, k⟩ hbk
  have hb : b ∈ bs := (List.of_mem_zip hbk).1
  simp [h b hb]

lemma zip_toBits_eq (w v : ℕ) (keys : List (Pt K)) (bs : List Bool)
    (hlen : bs.length = keys.length) (hcap : keys.length ≤ w)
    (hbits : ∀ i, i < keys.length → v.testBit i = bs.getD i false) :
    (toBitsLE w v).zip keys = bs.zip keys := by
  apply List.ext_getElem
  · simp only [List.length_zip, toBitsLE, List.length_map, List.length_range, hlen]
    omega
  · intro i h1 h2
    have hi : i < keys.length := by
      simp only [List.length_zip, lt_min_iff, hlen] at h2
      exact h2.2
    rw [List.getElem_zip, List.getElem_zip]
    congr 1
    simp only [toBitsLE, List.getElem_map, List.getElem_range]
    rw [hbits i hi]
    exact List.getD_eq_getElem bs false (by omega)

/-! Bridge to the Mathlib short-Weierstrass group law. -/

/-- The short-Weierstrass curve y² = x³ + A·x + B as a Mathlib Weierstrass
curve (a₁ = a₂ = a₃ = 0). -/
def Wc (A B : K) : WeierstrassCurve.Affine K :=
  ⟨0, 0, 0, A, B⟩

/-- A point of the curve y² = x³ + A·x + B that is a nonsingular point of
the curve, stated with plain field equations. -/
def Nonsing (A B : K) (p : Pt K) : Prop :=
  p.y ^ 2 = p.x ^ 3 + A * p.x + B ∧ (3 * p.x ^ 2 + A ≠ 0 ∨ p.y ≠ -p.y)

instance instDecidableNonsing (A B : K) (p : Pt K) : Decidable (Nonsing A B p) :=
  decidable_of_iff
    (p.y ^ 2 = p.x ^ 3 + A * p.x + B ∧ (3 * p.x ^ 2 + A ≠ 0 ∨ p.y ≠ -p.y)) Iff.rfl

lemma nonsing_iff_mathlib (A B : K) (p : Pt K) :
    Nonsing A B p ↔ (Wc A B).Nonsingular p.x p.y := by
  rw [WeierstrassCurve.Affine.nonsingular_iff, WeierstrassCurve.Affine.equation_iff]
  simp only [Wc, zero_mul, mul_zero, zero_add, add_zero, sub_zero]
  rw [Nonsing]
  constructor
  · rintro ⟨he, hs⟩
    exact ⟨he, hs.imp Ne.symm id⟩
  · rintro ⟨he, hs⟩
    exact ⟨he, hs.imp Ne.symm id⟩

/-- Map an embedded affine point to the Mathlib point type of the curve
(the point at infinity if it is not a nonsingular curve point). -/
def toPt (A B : K) (p : Pt K) : (Wc A B).Point :=
  if h : Nonsing A B p then
    WeierstrassCurve.Affine.Point.some ((nonsing_iff_mathlib A B p).mp h)
  else 0

lemma toPt_eq_some (A B : K) (p : Pt K) (h : (Wc A B).Nonsingular p.x p.y) :
    toPt A B p = WeierstrassCurve.Affine.Point.some h := by
  rw [toPt, dif_pos ((nonsing_iff_mathlib A B p).mpr h)]

lemma point_some_congr {W : WeierstrassCurve.Affine K} {x₁ y₁ x₂ y₂ : K}
    (hx : x₁ = x₂) (hy : y₁ = y₂) (h₁ : W.Nonsingular x₁ y₁) (h₂ : W.Nonsingular x₂ y₂) :
    WeierstrassCurve.Affine.Point.some h₁ = WeierstrassCurve.Affine.Point.some h₂ := by
  subst hx
  subst hy
  rfl

lemma point_some_inj {W : WeierstrassCurve.Affine K} {x₁ y₁ x₂ y₂ : K}
    {h₁ : W.Nonsingular x₁ y₁} {h₂ : W.Nonsingular x₂ y₂}
    (h : WeierstrassCurve.Affine.Point.some h₁ = WeierstrassCurve.Affine.Point.some h₂) :
    x₁ = x₂ ∧ y₁ = y₂ := by
  injection h with hx hy
  exact ⟨hx, hy⟩

lemma Pt.ext_xy {p q : Pt K} (hx : p.x = q.x) (hy : p.y = q.y) : p = q := by
  cases p
  cases q
  cases hx
  cases hy
  rfl

lemma chord_nonsing (A B : K) {s p : Pt K} (hs : Nonsing A B s) (hp : Nonsing A B p)
    (hx : s.x ≠ p.x) :
    Nonsing A B (chord s p) ∧ toPt A B (chord s p) = toPt A B s + toPt A B p := by
  have hs' := (nonsing_iff_mathlib A B s).mp hs
  have hp' := (nonsing_iff_mathlib A B p).mp hp
  have hL : (Wc A B).slope s.x p.x s.y p.y = (p.y - s.y) / (p.x - s.x) := by
    rw [WeierstrassCurve.Affine.slope_of_X_ne hx,
      show s.y - p.y = -(p.y - s.y) by ring, show s.x - p.x = -(p.x - s.x) by ring,
      neg_div_neg_eq]
  have hchord : chord s p =
      ⟨(Wc A B).addX s.x p.x ((Wc A B).slope s.x p.x s.y p.y),
       (Wc A B).addY s.x p.x s.y ((Wc A B).slope s.x p.x s.y p.y)⟩ := by
    rw [chord]
    apply Pt.ext_xy
    · show ((p.y - s.y) / (p.x - s.x)) ^ 2 - s.x - p.x = (Wc A B).addX s.x p.x _
      rw [hL, WeierstrassCurve.Affine.addX]
      show _ = _ + (0 : K) * _ - 0 - _ - _
      ring
    · show ((p.y - s.y) / (p.x - s.x)) *
          (s.x - (((p.y - s.y) / (p.x - s.x)) ^ 2 - s.x - p.x)) - s.y
        = (Wc A B).addY s.x p.x s.y _
      rw [hL, WeierstrassCurve.Affine.addY, WeierstrassCurve.Affine.negAddY,
        WeierstrassCurve.Affine.negY, WeierstrassCurve.Affine.addX]
      show _ = -(_ * (_ ^ 2 + (0 : K) * _ - 0 - _ - _ - _) + _) - 0 * _ - 0
      ring
  have hns : Nonsing A B (chord s p) := by
    rw [nonsing_iff_mathlib, hchord]
    exact WeierstrassCurve.Affine.nonsingular_add hs' hp' (fun h => absurd h hx)
  refine ⟨hns, ?_⟩
  rw [toPt_eq_some A B s hs', toPt_eq_some A B p hp',
    toPt_eq_some A B (chord s p) ((nonsing_iff_mathlib A B (chord s p)).mp hns),
    WeierstrassCurve.Affine.Point.add_of_X_ne hx]
  exact point_some_congr (congrArg Pt.x hchord) (congrArg Pt.y hchord) _ _

lemma foldl_add_sum {M : Type} [AddMonoid M] (l : List M) (a : M) :
    l.foldl (fun x y => x + y) a = a + l.sum := by
  induction l generalizing a with
  | nil => simp
  | cons b rest ih => rw [List.foldl_cons, List.sum_cons, ih, add_assoc]

lemma foldl_chord_sum (A B : K) (l : List (Pt K)) :
    ∀ s : Pt K, Nonsing A B s → (∀ p ∈ l, Nonsing A B p) → chainOk s l = true →
      Nonsing A B (l.foldl chord s) ∧
        toPt A B (l.foldl chord s)
          = l.foldl (fun acc p => acc + toPt A B p) (toPt A B s) := by
  induction l with
  | nil => exact fun s hs _ _ => ⟨hs, rfl⟩
  | cons p rest ih =>
    intro s hs hl h
    rw [chainOk, Bool.and_eq_true, decide_eq_true_iff] at h
    obtain ⟨hx, hrest⟩ := h
    obtain ⟨hns, heq⟩ := chord_nonsing A B hs (hl p (by simp)) hx
    obtain ⟨hns', heq'⟩ := ih (chord s p) hns (fun q hq => hl q (by simp [hq])) hrest
    refine ⟨hns', ?_⟩
    rw [List.foldl_cons, List.foldl_cons, heq', heq]

lemma accChain_sum (A B : K) (l : List (Pt K)) (hns : ∀ p ∈ l, Nonsing A B p)
    (hpre : accPre l = true) :
    ∃ r : Pt K, accChainNative l = some r ∧ Nonsing A B r ∧
      toPt A B r = (l.map (toPt A B)).sum := by
  match l with
  | [] => simp [accPre] at hpre
  | [p] => simp [accPre] at hpre
  | p1 :: p2 :: rest =>
    rw [accPre, Bool.and_eq_true, decide_eq_true_iff] at hpre
    obtain ⟨h12, hchain⟩ := hpre
    obtain ⟨s0, hs0, hfin0⟩ := init_eq_chord p1 p2 h12
    obtain ⟨sf, hsf, hff⟩ := addAllNative_chord rest s0 (by rw [hfin0]; exact hchain)
    have h1 : Nonsing A B p1 := hns p1 (by simp)
    have h2 : Nonsing A B p2 := hns p2 (by simp)
    obtain ⟨hc, hceq⟩ := chord_nonsing A B h1 h2 h12
    obtain ⟨hr, hreq⟩ := foldl_chord_sum A B rest (chord p1 p2) hc
      (fun q hq => hns q (by simp [hq])) hchain
    refine ⟨sf.finalize, ?_, ?_, ?_⟩
    · rw [accChainNative, hs0]
      show (match addAllNative s0 rest with
            | none => none
            | some sf => some sf.finalize) = some sf.finalize
      rw [hsf]
    · rw [hff, hfin0]
      exact hr
    · rw [hff, hfin0, hreq, hceq, List.map_cons, List.map_cons, List.sum_cons,
        List.sum_cons, ← List.foldl_map, foldl_add_sum, add_assoc]

/-! A concrete small field and curve for evaluating the development.

F13 is the field with 13 elements, with the inverse given by the
Fermat power so that every operation evaluates by kernel reduction.
The sample points lie on the curve y² = x³ + 2 over F13. -/

def F13 : Type := Fin 13

instance : DecidableEq F13 := inferInstanceAs (DecidableEq (Fin 13))

instance : Fintype F13 := inferInstanceAs (Fintype (Fin 13))

instance : CommRing F13 := inferInstanceAs (CommRing (Fin 13))

instance : Field F13 where
  inv a := a ^ 11
  mul_inv_cancel := by decide
  inv_zero := by decide
  exists_pair_ne := ⟨(0 : Fin 13), (1 : Fin 13), by decide⟩
  nnqsmul := _
  qsmul := _

/-- Sample point (1, 4) on y² = x³ + 2 over F13. -/
def wA : Pt F13 := ⟨1, 4⟩

/-- Sample point (2, 6) on y² = x³ + 2 over F13. -/
def wB : Pt F13 := ⟨2, 6⟩

/-- Sample point (3, 4) on y² = x³ + 2 over F13. -/
def wC : Pt F13 := ⟨3, 4⟩

/-- Sample point (5, 7) on y² = x³ + 2 over F13. -/
def wD : Pt F13 := ⟨5, 7⟩

/-- Sample point (1, 9) on y² = x³ + 2 over F13, sharing its x-coordinate
with wA. -/
def wAneg : Pt F13 := ⟨1, 9⟩

instance : NeZero (13 : ℕ) := ⟨by norm_num⟩

/-! Claims. -/

/-- C1: for every sequence of n ≥ 2 points with pairwise distinct
x-coordinates whose running partial sums never share an x-coordinate with
the next point added, chaining init on the first two points, the native add
on each remaining point, then finalize yields exactly the group-theoretic
sum computed by the reference short-Weierstrass addition law. -/
theorem acc_native_matches_reference (a : K) (p1 p2 : Pt K) (rest : List (Pt K))
    (hpair : (p1 :: p2 :: rest).Pairwise (fun p q => p.x ≠ q.x))
    (hchain : chainOk (chord p1 p2) rest = true) :
    ∃ r : Pt K, accChainNative (p1 :: p2 :: rest) = some r ∧
      refSum a (p1 :: p2 :: rest) = some r := by
  have h12 : p1.x ≠ p2.x := (List.pairwise_cons.mp hpair).1 p2 (by simp)
  obtain ⟨s0, hs0, hfin0⟩ := init_eq_chord p1 p2 h12
  obtain ⟨sf, hsf, hff⟩ := addAllNative_chord rest s0 (by rw [hfin0]; exact hchain)
  refine ⟨sf.finalize, ?_, ?_⟩
  · rw [accChainNative, hs0]
    show (match addAllNative s0 rest with
          | none => none
          | some sf => some sf.finalize) = some sf.finalize
    rw [hsf]
  · have hswn : swAdd a none (some p1) = some p1 := rfl
    have hsw12 : swAdd a (some p1) (some p2) = some (chord p1 p2) := by
      rw [swAdd, if_neg h12]
    rw [refSum, List.foldl_cons, List.foldl_cons, hswn, hsw12,
      refFold_chord a rest (chord p1 p2) hchain, hff, hfin0]

/-- Witness for C1 at the concrete points (1,4), (2,6), (3,4) over F13. -/
theorem acc_native_matches_reference_witness :
    List.Pairwise (fun p q : Pt F13 => p.x ≠ q.x) [wA, wB, wC] ∧
    chainOk (chord wA wB) [wC] = true ∧
    ∃ r : Pt F13, accChainNative [wA, wB, wC] = some r ∧
      refSum 0 [wA, wB, wC] = some r :=
  ⟨by decide, by decide,
    acc_native_matches_reference 0 wA wB [wC] (by decide) (by decide)⟩

/-- C2: for every point sequence satisfying the accumulator's
x-distinctness preconditions, the emulated-regime chain produces exactly
the same final point value as the native-regime chain. -/
theorem native_emulated_agree (ps : List (Pt K)) (hpre : accPre ps = true) :
    accChainEmulated ps = accChainNative ps :=
  accChainEmulated_eq ps

/-- Witness for C2 at the concrete points (1,4), (2,6), (3,4) over F13. -/
theorem native_emulated_agree_witness :
    accPre [wA, wB, wC] = true ∧
    accChainEmulated [wA, wB, wC] = accChainNative [wA, wB, wC] :=
  ⟨by decide, native_emulated_agree [wA, wB, wC] (by decide)⟩

/-- C4: when p.x differs from x3_prev, the identity enforced by the
emulated add, reduce(λ'·(P.x − x3_prev) + λ_prev·(x1_prev − x3_prev)) −
y1_prev − P.y = 0, holds exactly when λ' is the chord slope of the running
sum and P, and consequently the emulated add's witnessed state is exactly
the state the native in-circuit division produces. -/
theorem emulated_add_slope_identity (s : SumAccumulator K) (p : Pt K)
    (h : p.x ≠ s.x3_prev) :
    (∀ lam : K, emuConstraint s p lam = 0 ↔
        lam = (s.lambda_prev * (s.x3_prev - s.x1_prev) + s.y1_prev + p.y)
          / (p.x - s.x3_prev)) ∧
    s.addEmulated p = s.addNative p := by
  have hd : p.x - s.x3_prev ≠ 0 := sub_ne_zero.mpr h
  refine ⟨?_, addEmulated_eq_addNative s p⟩
  intro lam
  simp only [emuConstraint, mul_without_reduce, Unreduced.add, Unreduced.reduce]
  rw [eq_div_iff hd]
  constructor
  · intro h0
    linear_combination h0
  · intro h0
    linear_combination h0

/-- Witness for C4 at a concrete state and point over F13. -/
theorem emulated_add_slope_identity_witness :
    ((⟨5, 6⟩ : Pt F13).x ≠ (⟨1, 2, 3, 4⟩ : SumAccumulator F13).x3_prev) ∧
    ((∀ lam : F13,
        emuConstraint (⟨1, 2, 3, 4⟩ : SumAccumulator F13) (⟨5, 6⟩ : Pt F13) lam = 0 ↔
          lam = ((3 : F13) * ((4 : F13) - 1) + 2 + 6) / ((5 : F13) - 4)) ∧
      SumAccumulator.addEmulated (⟨1, 2, 3, 4⟩ : SumAccumulator F13) (⟨5, 6⟩ : Pt F13)
        = SumAccumulator.addNative (⟨1, 2, 3, 4⟩ : SumAccumulator F13) (⟨5, 6⟩ : Pt F13)) :=
  ⟨by decide,
    emulated_add_slope_identity (⟨1, 2, 3, 4⟩ : SumAccumulator F13) (⟨5, 6⟩ : Pt F13)
      (by decide)⟩

/-- C6: supplying two points with equal x-coordinates to init, or a point
whose x-coordinate equals x3_prev to the native add, deterministically
fails at witness-generation time and never returns an accumulator state. -/
theorem init_add_collision_fails (p1 p2 : Pt K) (s : SumAccumulator K) (p : Pt K) :
    (p2.x = p1.x → SumAccumulator.init p1 p2 = none) ∧
    (p.x = s.x3_prev → s.addNative p = none) := by
  constructor
  · intro h
    rw [SumAccumulator.init, if_pos (by rw [h, sub_self])]
  · intro h
    rw [SumAccumulator.addNative, if_pos (by rw [h, sub_self])]

/-- Witness for C6: init on (1,4) and (1,9), and the native add of a point
whose x-coordinate equals the running sum's, both fail. -/
theorem init_add_collision_fails_witness :
    SumAccumulator.init wA wAneg = none ∧
    SumAccumulator.addNative (⟨1, 2, 3, 4⟩ : SumAccumulator F13) (⟨4, 7⟩ : Pt F13)
      = none :=
  ⟨(init_add_collision_fails wA wAneg (⟨1, 2, 3, 4⟩ : SumAccumulator F13)
      (⟨4, 7⟩ : Pt F13)).1 (by decide),
   (init_add_collision_fails wA wAneg (⟨1, 2, 3, 4⟩ : SumAccumulator F13)
      (⟨4, 7⟩ : Pt F13)).2 (by decide)⟩

/-- C8: for any two points with distinct x-coordinates, add_unchecked
returns exactly (λ² − x1 − x2, λ·(x1 − x3) − y1) for the chord slope
λ = (y2 − y1) / (x2 − x1), the division being realized as multiplication by
the denominator's inverse. -/
theorem add_unchecked_formula (p1 p2 : Pt K) (h : p1.x ≠ p2.x) :
    add_unchecked p1 p2 =
      some ⟨((p2.y - p1.y) / (p2.x - p1.x)) ^ 2 - p1.x - p2.x,
        ((p2.y - p1.y) / (p2.x - p1.x))
          * (p1.x - (((p2.y - p1.y) / (p2.x - p1.x)) ^ 2 - p1.x - p2.x)) - p1.y⟩ :=
  add_unchecked_eq_chord p1 p2 h

/-- Witness for C8 at the concrete points (1,4) and (2,6) over F13. -/
theorem add_unchecked_formula_witness :
    wA.x ≠ wB.x ∧
    add_unchecked wA wB =
      some ⟨((wB.y - wA.y) / (wB.x - wA.x)) ^ 2 - wA.x - wB.x,
        ((wB.y - wA.y) / (wB.x - wA.x))
          * (wA.x - (((wB.y - wA.y) / (wB.x - wA.x)) ^ 2 - wA.x - wB.x)) - wA.y⟩ :=
  ⟨by decide, add_unchecked_formula wA wB (by decide)⟩

/-- C3: for a seed S, keys, and a packed selector whose low bits encode
b₀..b₍ₙ₋₁₎ little-endian, with the step-wise x-distinctness precondition,
the circuit's final running point is the reference sum of S and exactly the
keys whose bit is set; in particular all-zero selector bits yield exactly
S.  Each step computes the candidate unconditionally and selects by the
bit, as the apkStep definition records. -/
theorem apk_circuit_correct (a : K) (q : ℕ) [NeZero q] (seed : Pt K)
    (keys : List (Pt K)) (sel : ZMod q) (bs : List Bool)
    (hlen : bs.length = keys.length) (hcap : keys.length ≤ bitSize q)
    (hbits : ∀ i, i < keys.length → sel.val.testBit i = bs.getD i false)
    (hok : apkOk seed (bs.zip keys) = true) :
    apkCircuit q seed keys sel
      = ((bs.zip keys).filter (fun bk => bk.1)).foldl
          (fun acc bk => swAdd a acc (some bk.2)) (some seed) ∧
    ((∀ b ∈ bs, b = false) → apkCircuit q seed keys sel = some seed) := by
  have hzip : (toBitsLE (bitSize q) sel.val).zip keys = bs.zip keys :=
    zip_toBits_eq (bitSize q) sel.val keys bs hlen hcap hbits
  constructor
  · rw [apkCircuit, hzip]
    exact apkLoop_swAdd a (bs.zip keys) seed hok
  · intro hfalse
    rw [apkCircuit, hzip, apkLoop_swAdd a (bs.zip keys) seed hok,
      filter_zip_false bs keys hfalse]
    rfl

/-- Witness for C3: seed (1,4), keys (2,6) and (3,4), selector 1 encoding
the bits true, false over F13 with native selector field ZMod 13. -/
theorem apk_circuit_correct_witness :
    ([true, false].length = [wB, wC].length) ∧
    ([wB, wC].length ≤ bitSize 13) ∧
    (∀ i, i < [wB, wC].length →
      (1 : ZMod 13).val.testBit i = [true, false].getD i false) ∧
    apkOk wA ([true, false].zip [wB, wC]) = true ∧
    (apkCircuit 13 wA [wB, wC] (1 : ZMod 13)
        = (([true, false].zip [wB, wC]).filter (fun bk => bk.1)).foldl
            (fun acc bk => swAdd 0 acc (some bk.2)) (some wA) ∧
      ((∀ b ∈ [true, false], b = false) →
        apkCircuit 13 wA [wB, wC] (1 : ZMod 13) = some wA)) :=
  ⟨by decide, by decide, by decide, by decide,
    apk_circuit_correct 0 13 wA [wB, wC] 1 [true, false]
      (by decide) (by decide) (by decide) (by decide)⟩

/-- A concrete accumulator state over F13 whose unmaterialized running sum
is the point (4, 2): finalize gives y = 3·(1 − 4) − 2 = 2. -/
def st5 : SumAccumulator F13 := ⟨1, 2, 3, 4⟩

/-- The running sum of st5 itself: x equals x3_prev and y equals the
finalized y-coordinate. -/
def p5 : Pt F13 := ⟨4, 2⟩

/-- C5 counterexample: adding to st5 the point p5, whose x-coordinate
equals x3_prev, the enforced multiplicative identity is NOT unsatisfiable:
it holds for every witness value of λ' (p5 is the running sum itself, so
the λ'-coefficient vanishes and the constant part is zero). -/
theorem emulated_collision_unsat_counterexample :
    p5.x = st5.x3_prev ∧ ¬ (∀ lam : F13, emuConstraint st5 p5 lam ≠ 0) := by
  decide

/-- C5 amended: when the added point's x-coordinate equals x3_prev, the
enforced identity is independent of λ'; it is unsatisfiable for every λ'
exactly when the added point's y-coordinate differs from the running sum's
finalized y-coordinate, and holds for every λ' otherwise.  In either case
the emulated add itself fails at witness-generation time (the plain-value
slope division has a zero denominator), so no wrong state is returned. -/
theorem emulated_collision_amended (s : SumAccumulator K) (p : Pt K)
    (hx : p.x = s.x3_prev) :
    (p.y ≠ s.finalize.y → ∀ lam : K, emuConstraint s p lam ≠ 0) ∧
    (p.y = s.finalize.y → ∀ lam : K, emuConstraint s p lam = 0) ∧
    s.addEmulated p = none := by
  have hzero : p.x - s.x3_prev = 0 := by rw [hx, sub_self]
  have hc : ∀ lam : K, emuConstraint s p lam = s.finalize.y - p.y := by
    intro lam
    simp only [emuConstraint, mul_without_reduce, Unreduced.add, Unreduced.reduce,
      SumAccumulator.finalize]
    linear_combination lam * hzero
  refine ⟨?_, ?_, ?_⟩
  · intro hy lam
    rw [hc lam]
    exact sub_ne_zero.mpr (Ne.symm hy)
  · intro hy lam
    rw [hc lam, hy, sub_self]
  · rw [SumAccumulator.addEmulated, if_pos hzero]

/-- Witness for the amended C5 at st5 with the colliding point (4, 7),
whose y-coordinate differs from the running sum's. -/
theorem emulated_collision_amended_witness :
    ((⟨4, 7⟩ : Pt F13).x = st5.x3_prev) ∧
    (((⟨4, 7⟩ : Pt F13).y ≠ st5.finalize.y → ∀ lam : F13,
        emuConstraint st5 (⟨4, 7⟩ : Pt F13) lam ≠ 0) ∧
      ((⟨4, 7⟩ : Pt F13).y = st5.finalize.y → ∀ lam : F13,
        emuConstraint st5 (⟨4, 7⟩ : Pt F13) lam = 0) ∧
      st5.addEmulated (⟨4, 7⟩ : Pt F13) = none) :=
  ⟨by decide, emulated_collision_amended st5 (⟨4, 7⟩ : Pt F13) (by decide)⟩

/-- C7: in the aggregation circuit, if at any step the running point's
x-coordinate equals the key's x-coordinate — regardless of the value of
that step's selector bit — witness generation fails hard (the whole
circuit evaluation is none), never producing a wrong or identity result. -/
theorem apk_collision_fails (q : ℕ) [NeZero q] (seed : Pt K) (keys : List (Pt K))
    (sel : ZMod q) (l₁ l₂ : List (Bool × Pt K)) (b : Bool) (k : Pt K) (curr : Pt K)
    (hsplit : (toBitsLE (bitSize q) sel.val).zip keys = l₁ ++ (b, k) :: l₂)
    (hrun : apkLoop seed l₁ = some curr)
    (hcol : curr.x = k.x) :
    apkCircuit q seed keys sel = none := by
  rw [apkCircuit, hsplit, apkLoop_append, hrun]
  show apkLoop curr ((b, k) :: l₂) = none
  rw [apkLoop, apkStep, add_unchecked_none curr k hcol]

/-- Witness for C7: seed (1,4) and single key (1,9) share an x-coordinate;
the selector is 0 so the step's bit is false, and the circuit still
fails. -/
theorem apk_collision_fails_witness :
    ((toBitsLE (bitSize 13) (0 : ZMod 13).val).zip [wAneg]
      = [] ++ (false, wAneg) :: []) ∧
    apkLoop wA [] = some wA ∧
    wA.x = wAneg.x ∧
    apkCircuit 13 wA [wAneg] (0 : ZMod 13) = none :=
  ⟨by decide, by decide, by decide,
    apk_collision_fails 13 wA [wAneg] 0 [] [] false wAneg wA
      (by decide) (by decide) (by decide)⟩

/-- C9: the finalized accumulator result does not depend on the order of
accumulation: two orderings of the same multiset of nonsingular curve
points that satisfy the accumulator's x-distinctness preconditions
finalize to the same point (so in particular the result is
order-independent whenever every ordering satisfies the preconditions,
as the claim supposes). -/
theorem acc_perm_independent (A B : K) (l₁ l₂ : List (Pt K)) (hperm : l₁.Perm l₂)
    (hns : ∀ p ∈ l₁, Nonsing A B p)
    (hpre₁ : accPre l₁ = true) (hpre₂ : accPre l₂ = true) :
    ∃ r : Pt K, accChainNative l₁ = some r ∧ accChainNative l₂ = some r := by
  have hns₂ : ∀ p ∈ l₂, Nonsing A B p := fun p hp => hns p (hperm.mem_iff.mpr hp)
  obtain ⟨r₁, hr₁, hn₁, ht₁⟩ := accChain_sum A B l₁ hns hpre₁
  obtain ⟨r₂, hr₂, hn₂, ht₂⟩ := accChain_sum A B l₂ hns₂ hpre₂
  have hsum : (l₁.map (toPt A B)).sum = (l₂.map (toPt A B)).sum :=
    (hperm.map (toPt A B)).sum_eq
  have ht : toPt A B r₁ = toPt A B r₂ := by rw [ht₁, ht₂, hsum]
  rw [toPt_eq_some A B r₁ ((nonsing_iff_mathlib A B r₁).mp hn₁),
    toPt_eq_some A B r₂ ((nonsing_iff_mathlib A B r₂).mp hn₂)] at ht
  obtain ⟨hx, hy⟩ := point_some_inj ht
  refine ⟨r₁, hr₁, ?_⟩
  rw [hr₂, Pt.ext_xy hx.symm hy.symm]

/-- Witness for C9: the four sample points of y² = x³ + 2 over F13 in two
different orders. -/
theorem acc_perm_independent_witness :
    List.Perm [wA, wB, wC, wD] [wC, wD, wA, wB] ∧
    (∀ p ∈ [wA, wB, wC, wD], Nonsing 0 2 p) ∧
    accPre [wA, wB, wC, wD] = true ∧
    accPre [wC, wD, wA, wB] = true ∧
    ∃ r : Pt F13, accChainNative [wA, wB, wC, wD] = some r ∧
      accChainNative [wC, wD, wA, wB] = some r :=
  ⟨by decide, by decide, by decide, by decide,
    acc_perm_independent 0 2 [wA, wB, wC, wD] [wC, wD, wA, wB]
      (by decide) (by decide) (by decide) (by decide)⟩

/-- C10: with n keys, n no larger than the native field's bit capacity, the
circuit's result depends only on the n low-order selector bits: two
selector field elements whose little-endian decompositions agree on
positions 0..n−1 produce the same final point, since the bit/key zip
truncates at the key list and higher bits are ignored. -/
theorem apk_selector_low_bits_only (q : ℕ) [NeZero q] (seed : Pt K)
    (keys : List (Pt K)) (v₁ v₂ : ZMod q) (hcap : keys.length ≤ bitSize q)
    (hagree : ∀ i, i < keys.length → v₁.val.testBit i = v₂.val.testBit i) :
    apkCircuit q seed keys v₁ = apkCircuit q seed keys v₂ := by
  rw [apkCircuit, apkCircuit]
  have hzip : (toBitsLE (bitSize q) v₁.val).zip keys
      = (toBitsLE (bitSize q) v₂.val).zip keys := by
    apply List.ext_getElem
    · simp [toBitsLE]
    · intro i h1 h2
      have hi : i < keys.length := by
        simp only [List.length_zip, lt_min_iff] at h1
        exact h1.2
      rw [List.getElem_zip, List.getElem_zip]
      congr 1
      simp only [toBitsLE, List.getElem_map, List.getElem_range]
      exact hagree i hi
  rw [hzip]

/-- Witness for C10: selectors 1 and 9 agree on the two low bits; with two
keys the circuit computes the same point for both. -/
theorem apk_selector_low_bits_only_witness :
    ([wB, wC].length ≤ bitSize 13) ∧
    (∀ i, i < [wB, wC].length →
      (1 : ZMod 13).val.testBit i = (9 : ZMod 13).val.testBit i) ∧
    apkCircuit 13 wA [wB, wC] (1 : ZMod 13) = apkCircuit 13 wA [wB, wC] (9 : ZMod 13) :=
  ⟨by decide, by decide,
    apk_selector_low_bits_only 13 wA [wB, wC] 1 9 (by decide) (by decide)⟩

end Snowball
